import Mathlib

/-
Verification of the stoneage-node blockchain core against its specification.

The development shallowly embeds the JavaScript sources:
  * lib/blockchain.js            (Blockchain: propose / confirm / unconfirm / reorg / validator)
  * lib/transaction/transaction.js (byte-level serialization, isCoinbase)
  * lib/transaction/sighash.js   (signature verification, idealized ECDSA)
  * lib/block/miner.js           (mining loop and the block event)
  * lib/store/block.js           (content-addressed in-memory stores)

JavaScript-specific behaviour is modelled explicitly:
  * `undefined` flowing through hash-typed variables (JsStr.undef);
  * NaN arising from arithmetic on undefined map entries (JsNum.nan);
  * exceptions, as an error component threaded beside the (already mutated) state,
    since a JS object keeps all mutations performed before a throw;
  * object identity for Buffers (JsBuffer.ref), since === on Buffers compares
    references, not contents.
-/

deriving instance DecidableEq for Except

namespace StoneAge

/-- Integer grid position, standing for the JS object with fields x and y.  The source
keys the pixel map by the string posToString(pos) = x + "_" + y, which is injective on
integer coordinates, so positions themselves serve as map keys here. -/
structure Pos where
  x : Int
  y : Int
deriving DecidableEq, Repr

/-- The four 4-neighbors of a position (lib/blockchain.js, neighbors). -/
def neighbors (pos : Pos) : List Pos :=
  [⟨pos.x - 1, pos.y⟩, ⟨pos.x + 1, pos.y⟩, ⟨pos.x, pos.y - 1⟩, ⟨pos.x, pos.y + 1⟩]

/-- Value of a hash-typed JS variable: either a hex string (abstracted to a natural
number, 0 standing for the sixty-four-zero NULL string) or the JS value undefined,
which object lookups return for absent keys and which acts as its own distinct key
in further lookups. -/
inductive JsStr where
  | absent : JsStr
  | hash : Nat → JsStr
deriving DecidableEq, Repr

/-- The NULL sentinel hash (lib/blockchain.js, NULL). -/
def NULLs : JsStr := .hash 0

/-- A JS number as it occurs in the work and height maps: an integer or NaN
(NaN arises from `undefined + 1`). -/
inductive JsNum where
  | num : Int → JsNum
  | nan : JsNum
deriving DecidableEq, Repr

/-- JS `v + 1` where v was read from a map: undefined or NaN propagate to NaN. -/
def jsAdd1 : Option JsNum → JsNum
  | some (.num n) => .num (n + 1)
  | _ => .nan

/-- JS `a > b` on numbers read from maps: any comparison involving NaN is false.
Both arguments are known to be defined at the call sites that use this. -/
def jsGt : Option JsNum → Option JsNum → Bool
  | some (.num a), some (.num b) => a > b
  | _, _ => false

/-- A JS object used as a map: an association list.  set overwrites, del removes,
get? returns the first (unique) binding. -/
abbrev JsMap (K V : Type) := List (K × V)

def JsMap.get? [DecidableEq K] (m : JsMap K V) (k : K) : Option V :=
  (m.find? (fun p => decide (p.1 = k))).map (·.2)

def JsMap.set [DecidableEq K] (m : JsMap K V) (k : K) (v : V) : JsMap K V :=
  (m.filter (fun p => decide (p.1 ≠ k))) ++ [(k, v)]

def JsMap.del [DecidableEq K] (m : JsMap K V) (k : K) : JsMap K V :=
  m.filter (fun p => decide (p.1 ≠ k))

/-- Lookup of a hash-valued property, returning the JS undefined value when absent. -/
def JsMap.getJs [DecidableEq K] (m : JsMap K JsStr) (k : K) : JsStr :=
  (m.get? k).getD .absent

/-- Chain-level public key, abstracted to its identity. -/
abbrev PubKey := Nat

/-- The signed content of a chain-level transaction: exactly the fields the sighash
binds (the transaction's serialization with the signature cleared: previous id,
position, color, new owner; lib/transaction/sighash.js). -/
structure TxCore where
  previous : Nat
  position : Pos
  color : Nat
  owner : PubKey
deriving DecidableEq, Repr

/-- An ECDSA signature, idealized: it records which key produced it and which
payload it signed, and verification succeeds exactly for that pair. -/
structure Sig where
  signer : PubKey
  payload : TxCore
deriving DecidableEq, Repr

/-- Chain-level transaction.  The hash field abstracts the computed id (double
SHA-256 of the serialization); the chain code only reads it. -/
structure Tx where
  hash : Nat
  core : TxCore
  signature : Option Sig
deriving DecidableEq, Repr

abbrev Tx.position (t : Tx) : Pos := t.core.position

abbrev Tx.owner (t : Tx) : PubKey := t.core.owner

abbrev Tx.previous (t : Tx) : Nat := t.core.previous

/-- Chain-level block.  hash and prevHash abstract the computed header ids.
Modelled from the spec for the height field: lib/block/block.js is not under src/;
spec section 3 gives the header a height field, and lib/blockchain.js reads
block.height, so a block carries its height here. -/
structure Block where
  hash : Nat
  prevHash : Nat
  height : Int
  transactions : List Tx
deriving DecidableEq, Repr

/-- Errors a call can raise.  The first four are the declared Blockchain errors
(lib/errors); invalidArgument and checkStateFailed come from the preconditions
helpers; typeError models a JS TypeError from reading a property of undefined. -/
inductive JsErr where
  | missingParent
  | pixelMined
  | notAdjacent
  | signatureMismatch (i : Nat)
  | invalidArgument
  | checkStateFailed
  | typeError
  | outOfFuel
deriving DecidableEq, Repr

/-- The mutable fields of a Blockchain object (lib/blockchain.js constructor). -/
structure Chain where
  tip : JsStr
  work : JsMap JsStr JsNum
  height : JsMap JsStr JsNum
  hashByHeight : JsMap JsNum JsStr
  next : JsMap JsStr JsStr
  prev : JsMap JsStr JsStr
  pixels : JsMap Pos Tx
  blockStore : JsMap JsStr Block
  txStore : JsMap JsStr Tx
deriving DecidableEq, Repr

/-- The state of `new Blockchain()`. -/
def initChain : Chain :=
  { tip := NULLs
    work := [(NULLs, .num 0)]
    height := [(NULLs, .num (-1))]
    hashByHeight := [(.num (-1), NULLs)]
    next := []
    prev := []
    pixels := []
    blockStore := []
    txStore := [] }

/-- Sighash.verify (lib/transaction/sighash.js): the preconditions reject an
undefined signature (InvalidArgument); otherwise ECDSA verification, idealized as
equality of the signing key and of the signed payload with the transaction's
signature-cleared content. -/
def Sighash.verify (tx : Tx) (sig : Option Sig) (pub : PubKey) : Except JsErr Bool :=
  match sig with
  | none => .error .invalidArgument
  | some s => .ok (decide (s.signer = pub) && decide (s.payload = tx.core))

namespace Blockchain

/-- Blockchain.prototype.hasData. -/
def hasData (s : Chain) (h : JsStr) : Bool :=
  decide (h = NULLs) || (s.work.get? h).isSome

/-- Blockchain.prototype.addHashReferences: record work and parent link.  Reading
work[prevHash] happens before the assignment, and an undefined parent work yields
NaN. -/
def addHashReferences (s : Chain) (b : Block) : Chain :=
  { s with
    work := s.work.set (.hash b.hash) (jsAdd1 (s.work.get? (.hash b.prevHash)))
    prev := s.prev.set (.hash b.hash) (.hash b.prevHash) }

/-- Blockchain.prototype.saveBlockToStore together with saveTxToStore. -/
def saveBlockToStore (s : Chain) (b : Block) : Chain :=
  { s with
    blockStore := s.blockStore.set (.hash b.hash) b
    txStore := b.transactions.foldl (fun m tx => m.set (.hash tx.hash) tx) s.txStore }

/-- The validation loop of checkValidBlock over the non-coinbase transactions,
with the scratch map prevTx.  When neither the scratch map nor pixels has an entry
at the position, the source reads `.owner` of undefined and a TypeError is thrown.
(The source also caches the pixels entry in the scratch map before verifying; the
cache is observationally equal because pixels is not mutated during validation.)
The counter i is the index reported by SignatureMismatch. -/
def checkTxLoop (pixels : JsMap Pos Tx) (scratch : JsMap Pos Tx) :
    List Tx → Nat → Except JsErr Unit
  | [], _ => .ok ()
  | tx :: rest, i =>
    let cur : Option Tx :=
      match scratch.get? tx.position with
      | some t => some t
      | none => pixels.get? tx.position
    match cur with
    | none => .error .typeError
    | some ptx =>
      match Sighash.verify tx tx.signature ptx.owner with
      | .error e => .error e
      | .ok true => checkTxLoop pixels (scratch.set tx.position tx) rest (i + 1)
      | .ok false => .error (.signatureMismatch i)

/-- Blockchain.prototype.checkValidBlock.  An empty transaction list makes the
source read `.position` of undefined (TypeError). -/
def checkValidBlock (s : Chain) (b : Block) : Except JsErr Unit :=
  if (s.work.get? (.hash b.prevHash)).isNone then .error .missingParent
  else
    match b.transactions with
    | [] => .error .typeError
    | cb :: rest =>
      if (s.pixels.get? cb.position).isSome then .error .pixelMined
      else
        let adjacent :=
          decide (b.height = 0) ||
            (neighbors cb.position).any (fun q => (s.pixels.get? q).isSome)
        if !adjacent then .error .notAdjacent
        else checkTxLoop s.pixels (JsMap.set [] cb.position cb) rest 1

/-- Blockchain.prototype.isValidBlock: any exception becomes false. -/
def isValidBlock (s : Chain) (b : Block) : Bool :=
  match checkValidBlock s b with
  | .ok _ => true
  | .error _ => false

/-- Blockchain.prototype.confirm.  The result carries the (possibly mutated) state
and the raised error, if any; the checkState guard fires before any mutation. -/
def confirm (s : Chain) (b : Block) : Chain × Option JsErr :=
  let hash := JsStr.hash b.hash
  let prevHash := s.prev.getJs hash
  if !(decide (prevHash ≠ NULLs) || decide (prevHash = s.tip)) then
    (s, some .checkStateFailed)
  else
    let height := jsAdd1 (s.height.get? prevHash)
    let s :=
      { s with
        tip := hash
        next := s.next.set prevHash hash
        hashByHeight := s.hashByHeight.set height hash
        height := s.height.set hash height }
    ({ s with
        pixels := b.transactions.foldl (fun px tx => px.set tx.position tx) s.pixels },
      none)

/-- Blockchain.prototype.unconfirm.  After the chain-index mutations the source
iterates the non-coinbase transactions and evaluates `this.txStore.get(tx.input)`;
a Transaction has no input field (lib/transaction/transaction.js defines version,
previous, position, color, owner, signature only), so the lookup key is undefined,
the store misses, and reading `.position` of undefined throws a TypeError on the
first iteration, with the chain-index mutations already applied.  A block with at
least two transactions therefore always crashes here; a block with no transactions
crashes reading `.position` of transactions[0].  Only a coinbase-only block
completes, deleting the coinbase's pixel. -/
def unconfirm (s : Chain) (b : Block) : Chain × Option JsErr :=
  let hash := JsStr.hash b.hash
  if hash ≠ s.tip then (s, some .checkStateFailed)
  else
    let prevHash := s.prev.getJs hash
    let height := s.height.get? hash
    let s :=
      { s with
        tip := prevHash
        next := s.next.del prevHash
        hashByHeight :=
          match height with
          | some h => s.hashByHeight.del h
          | none => s.hashByHeight
        height := s.height.del hash }
    match b.transactions with
    | [] => (s, some .typeError)
    | t0 :: rest =>
      if rest.isEmpty then ({ s with pixels := s.pixels.del t0.position }, none)
      else (s, some .typeError)

/-- Walk from a hash backward through prev while height is undefined, collecting
the hashes of the branch to confirm; returns the collected list (new-tip first)
and the common ancestor.  Fuel bounds the walk: the source's while loop diverges
when the prev links cycle or dangle, and fuel exhaustion models that. -/
def walkUnknown (height : JsMap JsStr JsNum) (prev : JsMap JsStr JsStr) :
    Nat → JsStr → Option (List JsStr × JsStr)
  | 0, _ => none
  | fuel + 1, p =>
    match height.get? p with
    | some _ => some ([], p)
    | none =>
      (walkUnknown height prev fuel (prev.getJs p)).map (fun r => (p :: r.1, r.2))

/-- Walk from the tip backward through prev until the common ancestor, collecting
the hashes to unconfirm (tip first). -/
def walkToAncestor (prev : JsMap JsStr JsStr) :
    Nat → JsStr → JsStr → Option (List JsStr)
  | 0, _, _ => none
  | fuel + 1, p, anc =>
    if p = anc then some []
    else (walkToAncestor prev fuel (prev.getJs p) anc).map (p :: ·)

/-- The toUnconfirm loop of _appendNewBlock: unconfirm each stored block; an
absent store entry makes unconfirm read `.hash` of undefined (TypeError).  This
loop runs outside the try block, so its errors propagate without rollback. -/
def runUnconfirms (s : Chain) : List JsStr → Chain × Option JsErr
  | [] => (s, none)
  | h :: rest =>
    match s.blockStore.get? h with
    | none => (s, some .typeError)
    | some b =>
      match unconfirm s b with
      | (s1, none) => runUnconfirms s1 rest
      | (s1, some e) => (s1, some e)

/-- The toConfirm loop of _appendNewBlock: checkArgument(isValidBlock(block))
throws InvalidArgument when validation fails (an absent store entry also ends up
there, because isValidBlock catches the TypeError and returns false), then
confirm runs. -/
def runConfirms (s : Chain) : List JsStr → Chain × Option JsErr
  | [] => (s, none)
  | h :: rest =>
    match s.blockStore.get? h with
    | none => (s, some .invalidArgument)
    | some b =>
      if isValidBlock s b then
        match confirm s b with
        | (s1, none) => runConfirms s1 rest
        | (s1, some e) => (s1, some e)
      else (s, some .invalidArgument)

/-- The catch block of _appendNewBlock: re-confirm the unconfirmed blocks in
reverse.  confirm is called without validation here; its own error, or a
TypeError from an absent store entry, replaces the original error. -/
def runRollback (s : Chain) : List JsStr → Chain × Option JsErr
  | [] => (s, none)
  | h :: rest =>
    match s.blockStore.get? h with
    | none => (s, some .typeError)
    | some b =>
      match confirm s b with
      | (s1, none) => runRollback s1 rest
      | (s1, some e) => (s1, some e)

/-- The result of a completed _appendNewBlock / proposeNewBlock. -/
structure ReorgResult where
  unconfirmed : List JsStr
  confirmed : List JsStr
deriving DecidableEq, Repr

/-- Blockchain.prototype._appendNewBlock. -/
def _appendNewBlock (s : Chain) (hash : JsStr) : Chain × Except JsErr ReorgResult :=
  let fuel := s.prev.length + 2
  match walkUnknown s.height s.prev fuel hash with
  | none => (s, .error .outOfFuel)
  | some (toConfirmRev, commonAncestor) =>
    match walkToAncestor s.prev fuel s.tip commonAncestor with
    | none => (s, .error .outOfFuel)
    | some toUnconfirm =>
      let toConfirm := toConfirmRev.reverse
      match runUnconfirms s toUnconfirm with
      | (s1, some e) => (s1, .error e)
      | (s1, none) =>
        match runConfirms s1 toConfirm with
        | (s2, none) => (s2, .ok ⟨toUnconfirm, toConfirm⟩)
        | (s2, some e) =>
          match runRollback s2 toUnconfirm.reverse with
          | (s3, none) => (s3, .error e)
          | (s3, some e2) => (s3, .error e2)

/-- Blockchain.prototype.proposeNewBlock. -/
def proposeNewBlock (s : Chain) (b : Block) : Chain × Except JsErr ReorgResult :=
  if !hasData s (.hash b.prevHash) then (s, .error .checkStateFailed)
  else
    let s := addHashReferences (saveBlockToStore s b) b
    let work := s.work.get? (.hash b.hash)
    let tipWork := s.work.get? s.tip
    if work.isNone then (s, .error .checkStateFailed)
    else if tipWork.isNone then (s, .error .checkStateFailed)
    else if jsGt work tipWork then _appendNewBlock s (.hash b.hash)
    else (s, .ok ⟨[], []⟩)

/-- The last transaction at position q in a list of already-validated in-block
transactions (later entries win). -/
def lastAt : List Tx → Pos → Option Tx
  | [], _ => none
  | t :: rest, q =>
    match lastAt rest q with
    | some r => some r
    | none => if t.position = q then some t else none

/-- The current owner at q while validating a block, as spec section 4.I words it:
the last previously validated in-block transaction at q; on first encounter the
coinbase if q is the coinbase position, otherwise the pixels entry. -/
def specOwnerAt (pixels : JsMap Pos Tx) (cb : Tx) (done : List Tx) (q : Pos) :
    Option Tx :=
  match lastAt done q with
  | some t => some t
  | none => if q = cb.position then some cb else pixels.get? q

/-- The validation loop as the spec words it: each transfer is verified against
the current owner at its position per specOwnerAt, and on success becomes the
current owner there. -/
def checkTxLoopSpec (pixels : JsMap Pos Tx) (cb : Tx) :
    List Tx → List Tx → Nat → Except JsErr Unit
  | _, [], _ => .ok ()
  | done, tx :: rest, i =>
    match specOwnerAt pixels cb done tx.position with
    | none => .error .typeError
    | some ptx =>
      match Sighash.verify tx tx.signature ptx.owner with
      | .error e => .error e
      | .ok true => checkTxLoopSpec pixels cb (done ++ [tx]) rest (i + 1)
      | .ok false => .error (.signatureMismatch i)

/-- checkValidBlock as spec section 4.I words it: the same parent, pixel-mined
and adjacency checks, then the transfer loop chaining off the last validated
in-block owner. -/
def checkValidBlockSpec (s : Chain) (b : Block) : Except JsErr Unit :=
  if (s.work.get? (.hash b.prevHash)).isNone then .error .missingParent
  else
    match b.transactions with
    | [] => .error .typeError
    | cb :: rest =>
      if (s.pixels.get? cb.position).isSome then .error .pixelMined
      else
        let adjacent :=
          decide (b.height = 0) ||
            (neighbors cb.position).any (fun q => (s.pixels.get? q).isSome)
        if !adjacent then .error .notAdjacent
        else checkTxLoopSpec s.pixels cb [] rest 1

/-- Modelled from the spec: unconfirm as section 4.I words it.  The difference
from the source's unconfirm is the pixel-restore loop: for i from the last
transaction down to 1, the spent transaction is looked up in the transaction
store under the transaction's previous field and its pixel is restored; then the
coinbase's pixel entry is deleted.  A missing store entry would still crash, as
in the source. -/
def unconfirmSpec (s : Chain) (b : Block) : Chain × Option JsErr :=
  let hash := JsStr.hash b.hash
  if hash ≠ s.tip then (s, some .checkStateFailed)
  else
    let prevHash := s.prev.getJs hash
    let height := s.height.get? hash
    let s :=
      { s with
        tip := prevHash
        next := s.next.del prevHash
        hashByHeight :=
          match height with
          | some h => s.hashByHeight.del h
          | none => s.hashByHeight
        height := s.height.del hash }
    match b.transactions with
    | [] => (s, some .typeError)
    | t0 :: rest =>
      let restore :=
        rest.reverse.foldlM
          (fun (px : JsMap Pos Tx) tx =>
            match s.txStore.get? (.hash tx.previous) with
            | none => none
            | some ptx => some (px.set ptx.position ptx))
          s.pixels
      match restore with
      | none => (s, some .typeError)
      | some px => ({ s with pixels := px.del t0.position }, none)

end Blockchain

/-- The miner's state, reduced to the fields the mining loop reads and writes:
the run flag and the template header's nonce (lib/block/miner.js).  The rest of
the template is fixed during a search and irrelevant to the loop. -/
structure MinerSt where
  running : Bool
  nonce : Nat
deriving DecidableEq, Repr

/-- A delivery of the miner's block event: the nonce of the emitted template and
the value of the running flag at the moment the handlers execute (EventEmitter
dispatch is synchronous, so handlers run during the emit call). -/
structure EmitEv where
  nonce : Nat
  runningAt : Bool
deriving DecidableEq, Repr

namespace Miner

/-- Miner.prototype.work, one unit of work: increment the nonce, check the proof
of work, and on success emit the block event and then stop.  Modelled from the
spec for the proof-of-work check: lib/block/blockheader.js is not under src/, so
validProofOfWork (id below the compact target, spec section 4.E) is abstracted
to a predicate on the nonce, the only header field the loop varies; the nonce
wraps at 2^32 per spec section 4.E.  The emit precedes this.stop(), so the event
records the running flag as it is at emit time. -/
def work (powOk : Nat → Bool) (m : MinerSt) : MinerSt × List EmitEv :=
  let m1 : MinerSt := { m with nonce := (m.nonce + 1) % 2 ^ 32 }
  if powOk m1.nonce then ({ m1 with running := false }, [⟨m1.nonce, m1.running⟩])
  else (m1, [])

/-- Miner.prototype.run: `this.running = true; while (this.running) this.work()`,
with fuel bounding the busy loop. -/
def runFrom (powOk : Nat → Bool) : Nat → MinerSt → MinerSt × List EmitEv
  | 0, m => (m, [])
  | fuel + 1, m =>
    if m.running then
      match work powOk m with
      | (m1, evs) =>
        match runFrom powOk fuel m1 with
        | (m2, evs2) => (m2, evs ++ evs2)
    else (m, [])

/-- Miner.prototype.run sets running and enters the loop. -/
def run (powOk : Nat → Bool) (fuel : Nat) (m : MinerSt) : MinerSt × List EmitEv :=
  runFrom powOk fuel { m with running := true }

end Miner

/-- Little-endian bytes of a natural number, fixed width. -/
def toLE : Nat → Nat → List Nat
  | 0, _ => []
  | w + 1, n => n % 256 :: toLE w (n / 256)

/-- Natural number denoted by little-endian bytes. -/
def fromLE : List Nat → Nat
  | [] => 0
  | b :: rest => b + 256 * fromLE rest

/-- BufferWriter.writeInt32LE: four little-endian bytes of the two's-complement
representation. -/
def toLE32i (i : Int) : List Nat := toLE 4 (i % 2 ^ 32).toNat

/-- BufferReader.readInt32LE: four little-endian bytes read back as a signed
32-bit integer. -/
def readInt32 (bs : List Nat) : Int :=
  let n := fromLE bs
  if n < 2 ^ 31 then (n : Int) else (n : Int) - 2 ^ 32

/-- A Node Buffer: its bytes together with an object identity, since the JS ===
operator on Buffers compares references.  Distinct allocations carry distinct
refs; ref 0 is reserved for the module-level NULL_HASH constant. -/
structure JsBuffer where
  ref : Nat
  bytes : List Nat
deriving DecidableEq, Repr

/-- Modelled from the spec: BufferUtil.NULL_HASH (lib/util/buffer.js is not under
src/); spec section 6 defines the NULL hash sentinel as 32 zero bytes.  It is a
single module-level Buffer object, here with identity 0. -/
def NULL_HASH : JsBuffer := ⟨0, List.replicate 32 0⟩

/-- Modelled from the spec: BufferUtil.emptyBuffer (lib/util/buffer.js is not
under src/): a freshly allocated zero-filled Buffer.  The allocation is a new
object, so its identity differs from every existing Buffer, in particular from
NULL_HASH; callers pass a nonzero fresh ref. -/
def emptyBuffer (fresh : Nat) (n : Nat) : JsBuffer := ⟨fresh, List.replicate n 0⟩

/-- A compressed public key as serialized: the parity of y and the 32 big-endian
bytes of x (lib/publickey.js toBufferWriter writes 0x02/0x03 then x; the reader
recovers the point from exactly these, so they determine the key). -/
structure PublicKeyC where
  odd : Bool
  xbytes : List Nat
deriving DecidableEq, Repr

/-- A signature value as the transaction object holds it; its content never
reaches the serializer, so only its presence matters here. -/
structure SigLE where
  rBytes : List Nat
  sBytes : List Nat
deriving DecidableEq, Repr

/-- The byte-level transaction record (lib/transaction/transaction.js): version,
previous (a Buffer), position, color, owner (absent until to() is called) and the
optional signature. -/
structure Transaction where
  version : Nat
  previous : JsBuffer
  posx : Int
  posy : Int
  color : Nat
  owner : Option PublicKeyC
  signature : Option SigLE
deriving DecidableEq, Repr

namespace Transaction

/-- Transaction.prototype._newTransaction: version 1, previous a fresh zero
Buffer, position origin, color 0, no owner, no signature.  (The source
initializes position as the array [0, 0]; only the previous field matters to the
claims about fresh transactions.) -/
def _newTransaction (fresh : Nat) : Transaction :=
  { version := 1
    previous := emptyBuffer fresh 32
    posx := 0
    posy := 0
    color := 0
    owner := none
    signature := none }

/-- Transaction.prototype.isCoinbase: `this.previous === BufferUtil.NULL_HASH`.
On Buffers === compares object identity, modelled by the ref. -/
def isCoinbase (t : Transaction) : Bool := t.previous.ref == NULL_HASH.ref

/-- Modelled from the spec: coinbase identification as spec sections 3 and 6
define it, `previous` equal to the 32-zero-byte sentinel, compared by content. -/
def isCoinbaseSpec (t : Transaction) : Bool := t.previous.bytes == NULL_HASH.bytes

/-- Transaction.prototype.toBuffer via toBufferWriter: version byte, previous
written reversed, position x and y as int32 LE, color as uint32 LE, then the
owner's compressed key.  No signature is ever written.  A missing owner makes
the source call a method of null (TypeError); out-of-range writeUInt8 /
writeInt32LE / writeUInt32LE arguments throw in Node. -/
def toBuffer (t : Transaction) : Except JsErr (List Nat) :=
  match t.owner with
  | none => .error .typeError
  | some k =>
    if t.version ≥ 256 then .error .invalidArgument
    else if t.posx < -(2 ^ 31) ∨ t.posx ≥ 2 ^ 31 then .error .invalidArgument
    else if t.posy < -(2 ^ 31) ∨ t.posy ≥ 2 ^ 31 then .error .invalidArgument
    else if t.color ≥ 2 ^ 32 then .error .invalidArgument
    else
      .ok ([t.version] ++ t.previous.bytes.reverse ++ toLE32i t.posx ++
        toLE32i t.posy ++ toLE 4 t.color ++
        ([if k.odd then 3 else 2] ++ k.xbytes))

/-- Transaction.prototype.fromBuffer via fromBufferReader: read version byte,
previous reversed into a fresh Buffer, position, color, then the owner through
PublicKey.fromBufferReader, whose header byte must be 0x02 or 0x03
(checkArgument).  The signature field is never assigned, so it is absent in the
result.  Reads past the end of the buffer throw in Node, modelled by the length
guard. -/
def fromBuffer (fresh : Nat) (bs : List Nat) : Except JsErr Transaction :=
  if bs.length < 78 then .error .invalidArgument
  else
    let version := bs.headD 0
    let prevBytes := ((bs.drop 1).take 32).reverse
    let px := readInt32 ((bs.drop 33).take 4)
    let py := readInt32 ((bs.drop 37).take 4)
    let color := fromLE ((bs.drop 41).take 4)
    let header := (bs.drop 45).headD 0
    if header ≠ 2 ∧ header ≠ 3 then .error .invalidArgument
    else
      .ok
        { version := version
          previous := ⟨fresh, prevBytes⟩
          posx := px
          posy := py
          color := color
          owner := some ⟨header = 3, (bs.drop 46).take 32⟩
          signature := none }

end Transaction

/-- A public key used by the concrete scenarios. -/
def pkA : PubKey := 100

/-- A coinbase transaction (chain level) with a given id and position. -/
def cbTx (h : Nat) (p : Pos) : Tx := ⟨h, ⟨0, p, 1, pkA⟩, none⟩

/-- Genesis-child block: height 0 on top of the NULL sentinel. -/
def gBlock : Block := ⟨1, 0, 0, [cbTx 11 ⟨0, 0⟩]⟩

/-- Block A: child of gBlock, coinbase at (0, 1), adjacent to (0, 0). -/
def aBlock : Block := ⟨2, 1, 1, [cbTx 12 ⟨0, 1⟩]⟩

/-- Block B1: a sibling of A (child of gBlock), coinbase at (1, 0). -/
def b1Block : Block := ⟨3, 1, 1, [cbTx 13 ⟨1, 0⟩]⟩

/-- Block B2: child of B1 whose coinbase reuses B1's position (1, 0), so it fails
validation with PixelMined once B1 is confirmed. -/
def b2Block : Block := ⟨4, 3, 2, [cbTx 14 ⟨1, 0⟩]⟩

/-- The chain after proposing the genesis child. -/
def chainG : Chain := (Blockchain.proposeNewBlock initChain gBlock).1

/-- The chain after proposing A on top. -/
def chainGA : Chain := (Blockchain.proposeNewBlock chainG aBlock).1

/-- The chain after additionally proposing the side-branch block B1 (no reorg:
equal work). -/
def chainGAB1 : Chain := (Blockchain.proposeNewBlock chainGA b1Block).1

/-- A height-0 side-branch block proposed on chainG: equal work, no reorg. -/
def wBlock : Block := ⟨5, 0, 0, [cbTx 15 ⟨9, 9⟩]⟩

/-- A block whose coinbase at (5, 5) has no neighboring pixel on chainG and whose
height is 1: rejected as NotAdjacent. -/
def farBlock : Block := ⟨6, 1, 1, [cbTx 16 ⟨5, 5⟩]⟩

/-- A block on top of gBlock whose coinbase reuses the already-mined position
(0, 0): invalid (PixelMined), although its cumulative work (2) exceeds the tip's. -/
def xBlock : Block := ⟨7, 1, 1, [cbTx 17 ⟨0, 0⟩]⟩

/-- A transfer at (7, 7) used by the validator crash scenario. -/
def farTransfer : Tx := ⟨22, ⟨11, ⟨7, 7⟩, 2, pkA⟩, some ⟨pkA, ⟨11, ⟨7, 7⟩, 2, pkA⟩⟩⟩

/-- A height-0 block with a coinbase at (5, 5) and a transfer at (7, 7), where no
pixel exists: the validator dereferences an absent scratch entry. -/
def c10Block : Block := ⟨9, 0, 0, [cbTx 21 ⟨5, 5⟩, farTransfer]⟩

/-- The original coinbase owning (0, 0) in the unconfirm scenario. -/
def spentTx : Tx := ⟨50, ⟨0, ⟨0, 0⟩, 1, pkA⟩, none⟩

/-- A transfer spending spentTx at (0, 0). -/
def transferTx : Tx := ⟨51, ⟨50, ⟨0, 0⟩, 2, pkA⟩, some ⟨pkA, ⟨50, ⟨0, 0⟩, 2, pkA⟩⟩⟩

/-- The tip block of the unconfirm scenario: coinbase at (0, 1) plus the transfer. -/
def c2Block : Block := ⟨2, 1, 1, [cbTx 52 ⟨0, 1⟩, transferTx]⟩

/-- A chain whose tip block is c2Block: block 1 mined (0, 0) via spentTx, block 2
mined (0, 1) and transferred (0, 0) to transferTx.  All stores are populated, as
proposeNewBlock populates them for every proposed block. -/
def c2Chain : Chain :=
  { tip := .hash 2
    work := [(NULLs, .num 0), (.hash 1, .num 1), (.hash 2, .num 2)]
    height := [(NULLs, .num (-1)), (.hash 1, .num 0), (.hash 2, .num 1)]
    hashByHeight := [(.num (-1), NULLs), (.num 0, .hash 1), (.num 1, .hash 2)]
    next := [(NULLs, .hash 1), (.hash 1, .hash 2)]
    prev := [(.hash 1, NULLs), (.hash 2, .hash 1)]
    pixels := [(⟨0, 0⟩, transferTx), (⟨0, 1⟩, cbTx 52 ⟨0, 1⟩)]
    blockStore := [(.hash 1, ⟨1, 0, 0, [spentTx]⟩), (.hash 2, c2Block)]
    txStore := [(.hash 50, spentTx), (.hash 52, cbTx 52 ⟨0, 1⟩), (.hash 51, transferTx)] }

/-- Serialized bytes of a coinbase-shaped transaction: version 1, all-zero
previous, position (0, 0), color 0, even-parity owner key with zero x. -/
def c6bytes : List Nat :=
  [1] ++ List.replicate 32 0 ++ List.replicate 12 0 ++ [2] ++ List.replicate 32 0

/-- A signature value for the serialization scenario. -/
def c5sig : SigLE := ⟨[1, 2], [3, 4]⟩

/-- A fully populated, signed transaction for the serialization scenario. -/
def c5tx : Transaction :=
  { version := 1
    previous := ⟨5, List.replicate 32 7⟩
    posx := 3
    posy := -4
    color := 9
    owner := some ⟨false, List.replicate 32 1⟩
    signature := some c5sig }

/-- The same transaction without a signature. -/
def c5utx : Transaction := { c5tx with signature := none }

/-- The initial miner state of the mining scenario. -/
def c9m0 : MinerSt := ⟨false, 0⟩

/-- Boolean bound on a JS work value: it is a number and at most t. -/
def jsLeB : JsNum → Int → Bool
  | .num n, t => n ≤ t
  | .nan, _ => false

/-- Tip maximality, the invariant claimed for proposeNewBlock: the NULL sentinel
has a numeric work entry (as the constructor establishes), the tip has a numeric
work entry, and every recorded work value is a number bounded by the tip's. -/
def TipMaximal (s : Chain) : Prop :=
  (∃ z, s.work.get? NULLs = some (.num z)) ∧
    ∃ t, s.work.get? s.tip = some (.num t) ∧
      ∀ p ∈ s.work, jsLeB p.2 t = true

theorem JsMap.get?_set_self [DecidableEq K] (m : JsMap K V) (k : K) (v : V) :
    (m.set k v).get? k = some v := by
  unfold JsMap.set JsMap.get?
  rw [List.find?_append]
  have h1 : List.find? (fun p => decide (p.1 = k))
      (m.filter fun p => decide (p.1 ≠ k)) = none := by
    rw [List.find?_filter]
    rw [List.find?_eq_none]
    intro x _
    simp
  rw [h1, Option.none_or]
  simp [List.find?]

theorem JsMap.get?_set_ne [DecidableEq K] (m : JsMap K V) (k k' : K) (v : V)
    (h : k' ≠ k) : (m.set k v).get? k' = m.get? k' := by
  unfold JsMap.set JsMap.get?
  rw [List.find?_append]
  have h2 : List.find? (fun p => decide (p.1 = k')) [(k, v)] = none := by
    have hk : k ≠ k' := Ne.symm h
    simp [List.find?, hk]
  have h1 : List.find? (fun p => decide (p.1 = k'))
      (m.filter fun p => decide (p.1 ≠ k)) =
      List.find? (fun p => decide (p.1 = k')) m := by
    rw [List.find?_filter]
    congr 1
    funext a
    by_cases ha : a.1 = k'
    · simp [ha, h]
    · simp [ha]
  rw [h1, h2, Option.or_none]

theorem JsMap.get?_mem [DecidableEq K] {m : JsMap K V} {k : K} {v : V}
    (h : m.get? k = some v) : (k, v) ∈ m := by
  unfold JsMap.get? at h
  obtain ⟨p, hfind, hp⟩ : ∃ p, m.find? (fun p => decide (p.1 = k)) = some p ∧ p.2 = v := by
    cases hf : m.find? (fun p => decide (p.1 = k)) with
    | none => rw [hf] at h; simp at h
    | some p => rw [hf] at h; exact ⟨p, rfl, by simpa using h⟩
  have hmem := List.mem_of_find?_eq_some hfind
  have hkey : p.1 = k := by simpa using List.find?_some hfind
  have : p = (k, v) := by
    cases p
    simp only at hkey hp
    rw [hkey, hp]
  rwa [this] at hmem

theorem JsMap.mem_set [DecidableEq K] {m : JsMap K V} {k : K} {v : V}
    {p : K × V} (h : p ∈ m.set k v) : p = (k, v) ∨ (p ∈ m ∧ p.1 ≠ k) := by
  unfold JsMap.set at h
  rcases List.mem_append.mp h with h1 | h2
  · right
    have := List.mem_filter.mp h1
    exact ⟨this.1, by simpa using this.2⟩
  · left
    simpa using h2

/-- C1: the reorg rollback is not atomic.  On the concrete chain with active
branch genesis-G, tip A and side branch G-B1-B2, proposing B2 triggers a reorg in
which B1 is validated and confirmed and B2 is then rejected (PixelMined, surfaced
as the InvalidArgument of checkArgument(isValidBlock)).  The catch block only
re-confirms the unconfirmed blocks: after the error propagates, B1's coinbase
pixel at (1, 0) and B1's height entry are still present, so pixels and height do
not equal their pre-call values, contradicting the claimed restoration when
validation fails after a block of the new branch was already confirmed. -/
theorem c1_rollback_not_atomic :
    (Blockchain.proposeNewBlock chainGAB1 b2Block).2 = .error .invalidArgument ∧
    (Blockchain.proposeNewBlock chainGAB1 b2Block).1.tip = chainGAB1.tip ∧
    (Blockchain.proposeNewBlock chainGAB1 b2Block).1.pixels.get? ⟨1, 0⟩ =
      some (cbTx 13 ⟨1, 0⟩) ∧
    chainGAB1.pixels.get? ⟨1, 0⟩ = none ∧
    (Blockchain.proposeNewBlock chainGAB1 b2Block).1.height.get? (.hash 3) =
      some (.num 1) ∧
    chainGAB1.height.get? (.hash 3) = none := by
  decide

/-- C2: unconfirm reads the nonexistent input field.  On a tip block holding a
coinbase and one transfer, the source's unconfirm evaluates
txStore.get(tx.input); a Transaction has no input field, so the lookup misses
and reading .position of undefined throws a TypeError, with no pixel restored.
The spec-worded unconfirm (lookup under tx.previous) succeeds on the same input,
restores the spent transaction's pixel at (0, 0) and deletes the coinbase's
entry at (0, 1). -/
theorem c2_unconfirm_uses_missing_input :
    (Blockchain.unconfirm c2Chain c2Block).2 = some .typeError ∧
    (Blockchain.unconfirm c2Chain c2Block).1.pixels = c2Chain.pixels ∧
    (Blockchain.unconfirmSpec c2Chain c2Block).2 = none ∧
    (Blockchain.unconfirmSpec c2Chain c2Block).1.pixels.get? ⟨0, 0⟩ = some spentTx ∧
    (Blockchain.unconfirmSpec c2Chain c2Block).1.pixels.get? ⟨0, 1⟩ = none := by
  decide

/-- C3 counterexample: after a proposeNewBlock call that raises a validation
error, the tip is not of maximal work among known blocks.  On the chain with
genesis child G, proposing the invalid block xBlock (coinbase on the already
mined pixel) raises InvalidArgument; afterwards xBlock's recorded work (2)
strictly exceeds the work of the tip (1), refuting tip == argmax work over known
blocks for sequences that include failing calls. -/
theorem c3_counterexample :
    (Blockchain.proposeNewBlock chainG xBlock).2 = .error .invalidArgument ∧
    (Blockchain.proposeNewBlock chainG xBlock).1.work.get? (.hash 7) =
      some (.num 2) ∧
    jsGt ((Blockchain.proposeNewBlock chainG xBlock).1.work.get? (.hash 7))
      ((Blockchain.proposeNewBlock chainG xBlock).1.work.get?
        (Blockchain.proposeNewBlock chainG xBlock).1.tip) = true := by
  decide

/-- C10: the validator crashes instead of raising a declared error.  On the
fresh chain, the height-0 block with a valid coinbase at (5, 5) and a transfer
at (7, 7), a position with no pixels entry, makes checkValidBlock read the owner
of an absent scratch entry: a TypeError, not one of MissingParent, PixelMined,
NotAdjacent, SignatureMismatch.  The preconditions of the claim hold: the parent
is known and the transfer's position differs from the coinbase's and is unowned. -/
theorem c10_validator_crashes_on_unowned_transfer :
    Blockchain.checkValidBlock initChain c10Block = .error .typeError ∧
    (initChain.work.get? (.hash c10Block.prevHash)).isSome = true ∧
    initChain.pixels.get? ⟨7, 7⟩ = none ∧
    farTransfer.position ≠ (cbTx 21 ⟨5, 5⟩).position := by
  decide

/-- C6: isCoinbase compares Buffer object identity, not content.  A freshly
constructed transaction carries a newly allocated zero Buffer, which is not the
NULL_HASH object, so isCoinbase returns false although the bytes are the 32-zero
sentinel; a transaction deserialized from bytes whose previous field is all
zeros likewise gets false.  The spec's content comparison returns true on both. -/
theorem c6_isCoinbase_is_reference_equality :
    Transaction.isCoinbase (Transaction._newTransaction 1) = false ∧
    (Transaction._newTransaction 1).previous.bytes = NULL_HASH.bytes ∧
    Transaction.isCoinbaseSpec (Transaction._newTransaction 1) = true ∧
    (Transaction.fromBuffer 2 c6bytes).map Transaction.isCoinbase = .ok false ∧
    (Transaction.fromBuffer 2 c6bytes).map Transaction.isCoinbaseSpec = .ok true := by
  decide

/-- C5 counterexample: the signature is not serialized.  For the concrete signed
transaction c5tx, serializing and deserializing yields a transaction whose
signature field is absent, so the round trip does not return c5tx and no
signature bytes are appended after the owner. -/
theorem c5_counterexample :
    ((Transaction.toBuffer c5tx).bind (Transaction.fromBuffer 9)).map
      Transaction.signature = .ok none ∧
    c5tx.signature = some c5sig ∧
    (Transaction.toBuffer c5tx).bind (Transaction.fromBuffer 9) ≠ .ok c5tx := by
  decide

/-- C7: a proposed block whose parent is known and whose recorded cumulative
work does not exceed the tip's work is accepted as a side branch: proposeNewBlock
returns empty unconfirmed and confirmed lists; the block and its transactions are
stored and prev and work are recorded, while tip, pixels, height, hashByHeight
and next keep their values. -/
theorem c7_side_branch_frame (s : Chain) (b : Block)
    (h1 : Blockchain.hasData s (.hash b.prevHash) = true)
    (h2 : (((Blockchain.addHashReferences (Blockchain.saveBlockToStore s b) b).work.get?
      s.tip)).isSome = true)
    (h3 : jsGt
      ((Blockchain.addHashReferences (Blockchain.saveBlockToStore s b) b).work.get?
        (.hash b.hash))
      ((Blockchain.addHashReferences (Blockchain.saveBlockToStore s b) b).work.get?
        s.tip) = false) :
    Blockchain.proposeNewBlock s b =
      ({ s with
          work := s.work.set (.hash b.hash) (jsAdd1 (s.work.get? (.hash b.prevHash)))
          prev := s.prev.set (.hash b.hash) (.hash b.prevHash)
          blockStore := s.blockStore.set (.hash b.hash) b
          txStore := b.transactions.foldl (fun m tx => m.set (.hash tx.hash) tx)
            s.txStore },
        .ok ⟨[], []⟩) := by
  have hself :
      (Blockchain.addHashReferences (Blockchain.saveBlockToStore s b) b).work.get?
        (.hash b.hash) = some (jsAdd1 (s.work.get? (.hash b.prevHash))) :=
    JsMap.get?_set_self _ _ _
  have hA : Blockchain.addHashReferences (Blockchain.saveBlockToStore s b) b =
      { s with
        work := s.work.set (.hash b.hash) (jsAdd1 (s.work.get? (.hash b.prevHash)))
        prev := s.prev.set (.hash b.hash) (.hash b.prevHash)
        blockStore := s.blockStore.set (.hash b.hash) b
        txStore := b.transactions.foldl (fun m tx => m.set (.hash tx.hash) tx)
          s.txStore } := rfl
  have h2' : ((Blockchain.addHashReferences (Blockchain.saveBlockToStore s b) b).work.get?
      s.tip).isNone = false := by
    cases hv : (Blockchain.addHashReferences (Blockchain.saveBlockToStore s b) b).work.get?
        s.tip with
    | none => rw [hv] at h2; simp at h2
    | some _ => rfl
  have htip : (Blockchain.addHashReferences (Blockchain.saveBlockToStore s b) b).tip =
      s.tip := rfl
  rw [hself] at h3
  unfold Blockchain.proposeNewBlock
  rw [h1]
  simp only [Bool.not_true, Bool.false_eq_true, if_false, hself, htip, h2', h3,
    Option.isNone_some, if_true]
  rw [hA]

/-- C7 witness: the side-branch theorem applied to the concrete chain with the
genesis child as tip and the equal-work height-0 block wBlock. -/
theorem c7_witness :
    Blockchain.proposeNewBlock chainG wBlock =
      ({ chainG with
          work := chainG.work.set (.hash wBlock.hash)
            (jsAdd1 (chainG.work.get? (.hash wBlock.prevHash)))
          prev := chainG.prev.set (.hash wBlock.hash) (.hash wBlock.prevHash)
          blockStore := chainG.blockStore.set (.hash wBlock.hash) wBlock
          txStore := wBlock.transactions.foldl (fun m tx => m.set (.hash tx.hash) tx)
            chainG.txStore },
        .ok ⟨[], []⟩) :=
  c7_side_branch_frame chainG wBlock (by decide) (by decide) (by decide)

theorem checkTxLoop_ne_notAdjacent (pixels scratch : JsMap Pos Tx) (txs : List Tx)
    (i : Nat) : Blockchain.checkTxLoop pixels scratch txs i ≠ .error .notAdjacent := by
  induction txs generalizing scratch i with
  | nil => simp [Blockchain.checkTxLoop]
  | cons tx rest ih =>
    unfold Blockchain.checkTxLoop
    cases hcur : (match scratch.get? tx.position with
      | some t => some t
      | none => pixels.get? tx.position : Option Tx) with
    | none => simp
    | some ptx =>
      simp only
      cases hs : tx.signature with
      | none => simp [Sighash.verify]
      | some sg =>
        simp only [Sighash.verify]
        by_cases hv : (decide (sg.signer = ptx.owner) && decide (sg.payload = tx.core)) = true
        · simp only [hv, if_true]
          exact ih _ _
        · simp only [Bool.not_eq_true] at hv
          simp [hv]

/-- C8: for a candidate block with known parent, a coinbase, and an unmined
coinbase position, checkValidBlock raises NotAdjacent exactly when the block's
height is nonzero and none of the four 4-neighbors of the coinbase position has
a pixels entry; at height 0 no adjacency is required. -/
theorem c8_not_adjacent_iff (s : Chain) (b : Block) (cb : Tx) (rest : List Tx)
    (htxs : b.transactions = cb :: rest)
    (hpar : (s.work.get? (.hash b.prevHash)).isSome = true)
    (hunmined : s.pixels.get? cb.position = none) :
    Blockchain.checkValidBlock s b = .error .notAdjacent ↔
      (b.height ≠ 0 ∧ ∀ q ∈ neighbors cb.position, s.pixels.get? q = none) := by
  have hpar' : (s.work.get? (.hash b.prevHash)).isNone = false := by
    cases hv : s.work.get? (.hash b.prevHash) with
    | none => rw [hv] at hpar; simp at hpar
    | some _ => rfl
  unfold Blockchain.checkValidBlock
  rw [hpar', htxs]
  simp only [Bool.false_eq_true, if_false, hunmined, Option.isSome_none, if_false]
  by_cases hadj : (decide (b.height = 0) ||
      (neighbors cb.position).any fun q => (s.pixels.get? q).isSome) = true
  · rw [hadj]
    simp only [Bool.not_true, Bool.false_eq_true, if_false]
    constructor
    · intro hloop
      exact absurd hloop (checkTxLoop_ne_notAdjacent _ _ _ _)
    · intro ⟨hh, hn⟩
      exfalso
      rcases Bool.or_eq_true_iff.mp hadj with h0 | hany
      · exact hh (by simpa using h0)
      · obtain ⟨q, hq, hqs⟩ := List.any_eq_true.mp hany
        rw [hn q hq] at hqs
        simp at hqs
  · rw [Bool.not_eq_true] at hadj
    rw [hadj]
    simp only [Bool.not_false, if_true]
    constructor
    · intro _
      rw [Bool.or_eq_false_iff] at hadj
      refine ⟨by simpa using hadj.1, fun q hq => ?_⟩
      have := (List.any_eq_false.mp hadj.2) q hq
      cases hv : s.pixels.get? q with
      | none => rfl
      | some _ => rw [hv] at this; simp at this
    · intro _
      trivial

/-- C8 witness: on the chain with only the genesis pixel at (0, 0), the height-1
block whose coinbase sits at the isolated position (5, 5) is rejected as
NotAdjacent, via the right-to-left direction of the adjacency theorem. -/
theorem c8_witness :
    Blockchain.checkValidBlock chainG farBlock = .error .notAdjacent :=
  (c8_not_adjacent_iff chainG farBlock (cbTx 16 ⟨5, 5⟩) [] (by decide) (by decide)
    (by decide)).mpr (by decide)

theorem lastAt_append_single (l : List Tx) (t : Tx) (q : Pos) :
    Blockchain.lastAt (l ++ [t]) q =
      if t.position = q then some t else Blockchain.lastAt l q := by
  induction l with
  | nil =>
    by_cases h : t.position = q
    · simp [Blockchain.lastAt, h]
    · simp [Blockchain.lastAt, h]
  | cons a l ih =>
    simp only [List.cons_append, Blockchain.lastAt, List.append_eq]
    rw [ih]
    by_cases h : t.position = q
    · simp [h]
    · simp [h]

theorem specOwnerAt_append (pixels : JsMap Pos Tx) (cb : Tx) (done : List Tx)
    (tx : Tx) (q : Pos) :
    Blockchain.specOwnerAt pixels cb (done ++ [tx]) q =
      if tx.position = q then some tx
      else Blockchain.specOwnerAt pixels cb done q := by
  unfold Blockchain.specOwnerAt
  rw [lastAt_append_single]
  by_cases h : tx.position = q
  · simp [h]
  · simp [h]

theorem checkTxLoop_eq_spec (pixels : JsMap Pos Tx) (cb : Tx) (txs : List Tx) :
    ∀ (scratch : JsMap Pos Tx) (done : List Tx) (i : Nat),
      (∀ q, (match scratch.get? q with
             | some t => some t
             | none => pixels.get? q) = Blockchain.specOwnerAt pixels cb done q) →
      Blockchain.checkTxLoop pixels scratch txs i =
        Blockchain.checkTxLoopSpec pixels cb done txs i := by
  induction txs with
  | nil => intro scratch done i _; rfl
  | cons tx rest ih =>
    intro scratch done i hinv
    unfold Blockchain.checkTxLoop Blockchain.checkTxLoopSpec
    rw [hinv tx.position]
    cases howner : Blockchain.specOwnerAt pixels cb done tx.position with
    | none => rfl
    | some ptx =>
      simp only
      cases hs : tx.signature with
      | none => rfl
      | some sg =>
        simp only [Sighash.verify]
        by_cases hv : (decide (sg.signer = ptx.owner) && decide (sg.payload = tx.core)) = true
        · simp only [hv, if_true]
          apply ih
          intro q
          rw [specOwnerAt_append]
          by_cases hq : tx.position = q
          · rw [← hq, JsMap.get?_set_self]
            simp
          · have hq' : q ≠ tx.position := fun e => hq e.symm
            rw [JsMap.get?_set_ne _ _ _ _ hq']
            simp only [if_neg hq]
            exact hinv q
        · simp only [Bool.not_eq_true] at hv
          rw [hv]

/-- C4: the validator chains intra-block transfers off the last validated
in-block owner.  checkValidBlock coincides with the validator worded as in spec
section 4.I: every non-coinbase transaction is verified against the owner key of
the last previously validated in-block transaction at its position, seeded with
the coinbase at the coinbase position and with the pixels entry on first
encounter, and on success the transaction becomes the current owner there, so
chains of transfers of one pixel inside a single block validate. -/
theorem c4_intra_block_transfer_chaining (s : Chain) (b : Block) :
    Blockchain.checkValidBlock s b = Blockchain.checkValidBlockSpec s b := by
  unfold Blockchain.checkValidBlock Blockchain.checkValidBlockSpec
  cases htx : b.transactions with
  | nil => rfl
  | cons cb rest =>
    have hloop : Blockchain.checkTxLoop s.pixels (JsMap.set [] cb.position cb) rest 1 =
        Blockchain.checkTxLoopSpec s.pixels cb [] rest 1 := by
      apply checkTxLoop_eq_spec
      intro q
      unfold Blockchain.specOwnerAt
      by_cases hq : q = cb.position
      · rw [hq, JsMap.get?_set_self]
        simp [Blockchain.lastAt]
      · rw [JsMap.get?_set_ne _ _ _ _ hq]
        simp [Blockchain.lastAt, JsMap.get?, List.find?, hq]
    dsimp only
    rw [hloop]

/-- C9 counterexample: the block event handler does not observe a stopped miner.
Running the concrete miner whose proof of work succeeds at nonce 2 delivers
exactly one block event, and the running flag observed at delivery time is true,
not false as claimed; the miner is stopped only after the emit returns. -/
theorem c9_counterexample :
    ((Miner.run (fun n => n == 2) 5 c9m0).2).map EmitEv.runningAt = [true] ∧
    (Miner.run (fun n => n == 2) 5 c9m0).1.running = false := by
  decide

theorem Miner.runFrom_not_running (powOk : Nat → Bool) (fuel : Nat) (m : MinerSt)
    (h : m.running = false) : Miner.runFrom powOk fuel m = (m, []) := by
  cases fuel with
  | zero => rfl
  | succ f =>
    unfold Miner.runFrom
    rw [h]
    simp

theorem Miner.runFrom_events (powOk : Nat → Bool) :
    ∀ (fuel : Nat) (m m' : MinerSt) (evs : List EmitEv),
      Miner.runFrom powOk fuel m = (m', evs) → m.running = true →
      (m'.running = false → ∃ n, evs = [⟨n, true⟩]) ∧
        (m'.running = true → evs = []) := by
  intro fuel
  induction fuel with
  | zero =>
    intro m m' evs h hrun
    unfold Miner.runFrom at h
    injection h with h1 h2
    subst h1
    subst h2
    exact ⟨fun hf => absurd hrun (by rw [hf]; simp), fun _ => rfl⟩
  | succ f ih =>
    intro m m' evs h hrun
    unfold Miner.runFrom Miner.work at h
    rw [hrun] at h
    simp only [if_true] at h
    by_cases hp : powOk ((m.nonce + 1) % 2 ^ 32) = true
    · rw [hp] at h
      simp only [if_true] at h
      rw [Miner.runFrom_not_running powOk f _ rfl] at h
      injection h with h1 h2
      subst h1
      subst h2
      refine ⟨fun _ => ⟨(m.nonce + 1) % 2 ^ 32, ?_⟩, fun hf => by simp at hf⟩
      simp
    · rw [Bool.not_eq_true] at hp
      rw [hp] at h
      simp only [Bool.false_eq_true, if_false] at h
      cases hrf : Miner.runFrom powOk f ⟨true, (m.nonce + 1) % 2 ^ 32⟩ with
      | mk m2 evs2 =>
        rw [hrf] at h
        injection h with h1 h2
        subst h1
        subst h2
        simpa using ih _ m2 evs2 hrf rfl

/-- C9 amended: per run of the miner, the block event is delivered exactly once
per successful proof-of-work search (none if the search is still running), and
the miner transitions to the stopped state immediately after the emit; but at
the moment the event handler executes the running flag is still true, because
the source emits before calling stop. -/
theorem c9_block_event_once_before_stop (powOk : Nat → Bool) (fuel : Nat)
    (m m' : MinerSt) (evs : List EmitEv) (h : Miner.run powOk fuel m = (m', evs)) :
    (m'.running = false → ∃ n, evs = [⟨n, true⟩]) ∧
      (m'.running = true → evs = []) :=
  Miner.runFrom_events powOk fuel { m with running := true } m' evs h rfl

/-- C9 witness: the amended miner theorem applied to the concrete run that finds
a block at nonce 2: exactly one event, delivered while running is still true. -/
theorem c9_witness :
    ∃ n, (Miner.run (fun k => k == 2) 5 c9m0).2 = [⟨n, true⟩] :=
  (c9_block_event_once_before_stop (fun k => k == 2) 5 c9m0
      (Miner.run (fun k => k == 2) 5 c9m0).1 (Miner.run (fun k => k == 2) 5 c9m0).2
      rfl).1 (by decide)

theorem toLE_length (w n : Nat) : (toLE w n).length = w := by
  induction w generalizing n with
  | zero => rfl
  | succ w ih => simp [toLE, ih]

theorem toLE32i_length (i : Int) : (toLE32i i).length = 4 := toLE_length 4 _

theorem fromLE_toLE (w n : Nat) : fromLE (toLE w n) = n % 256 ^ w := by
  induction w generalizing n with
  | zero => simp [toLE, fromLE, Nat.mod_one]
  | succ w ih =>
    simp only [toLE, fromLE, ih]
    rw [pow_succ, mul_comm (256 ^ w) 256, Nat.mod_mul]

theorem fromLE_toLE_of_lt {w n : Nat} (h : n < 256 ^ w) : fromLE (toLE w n) = n := by
  rw [fromLE_toLE, Nat.mod_eq_of_lt h]

theorem readInt32_toLE32i (i : Int) (h1 : -(2 ^ 31) ≤ i) (h2 : i < 2 ^ 31) :
    readInt32 (toLE32i i) = i := by
  unfold readInt32 toLE32i
  have h0 : 0 ≤ i % 2 ^ 32 := Int.emod_nonneg i (by norm_num)
  have hub : i % 2 ^ 32 < 2 ^ 32 := Int.emod_lt_of_pos i (by norm_num)
  have hlt : (i % 2 ^ 32).toNat < 256 ^ 4 := by omega
  rw [fromLE_toLE_of_lt hlt]
  have hn : ((i % 2 ^ 32).toNat : Int) = i % 2 ^ 32 := Int.toNat_of_nonneg h0
  by_cases hcase : (i % 2 ^ 32).toNat < 2 ^ 31
  · rw [if_pos hcase]
    omega
  · rw [if_neg hcase]
    omega

theorem fromBuffer_segments (fresh v : Nat) (prevR px py col xb : List Nat)
    (hdr : Nat) (hA : prevR.length = 32) (hB : px.length = 4) (hC : py.length = 4)
    (hD : col.length = 4) (hxb : xb.length = 32) (hhdr : hdr = 2 ∨ hdr = 3) :
    Transaction.fromBuffer fresh ([v] ++ prevR ++ px ++ py ++ col ++ ([hdr] ++ xb)) =
      .ok
        { version := v
          previous := ⟨fresh, prevR.reverse⟩
          posx := readInt32 px
          posy := readInt32 py
          color := fromLE col
          owner := some ⟨decide (hdr = 3), xb⟩
          signature := none } := by
  have hassoc : [v] ++ prevR ++ px ++ py ++ col ++ ([hdr] ++ xb) =
      [v] ++ (prevR ++ (px ++ (py ++ (col ++ ([hdr] ++ xb))))) := by
    simp [List.append_assoc]
  set bs := [v] ++ prevR ++ px ++ py ++ col ++ ([hdr] ++ xb) with hbs
  have hlen : bs.length = 78 := by
    simp [hbs, hA, hB, hC, hD, hxb]
  have e1 : bs.drop 1 = prevR ++ (px ++ (py ++ (col ++ ([hdr] ++ xb)))) := by
    rw [hassoc]
    exact List.drop_left' rfl
  have eprev : (bs.drop 1).take 32 = prevR := by
    rw [e1]
    exact List.take_left' hA
  have e33 : bs.drop 33 = px ++ (py ++ (col ++ ([hdr] ++ xb))) := by
    rw [show (33 : Nat) = 1 + 32 from rfl, ← List.drop_drop, e1, List.drop_left' hA]
  have ex : (bs.drop 33).take 4 = px := by
    rw [e33]
    exact List.take_left' hB
  have e37 : bs.drop 37 = py ++ (col ++ ([hdr] ++ xb)) := by
    rw [show (37 : Nat) = 33 + 4 from rfl, ← List.drop_drop, e33, List.drop_left' hB]
  have ey : (bs.drop 37).take 4 = py := by
    rw [e37]
    exact List.take_left' hC
  have e41 : bs.drop 41 = col ++ ([hdr] ++ xb) := by
    rw [show (41 : Nat) = 37 + 4 from rfl, ← List.drop_drop, e37, List.drop_left' hC]
  have ecol : (bs.drop 41).take 4 = col := by
    rw [e41]
    exact List.take_left' hD
  have e45 : bs.drop 45 = [hdr] ++ xb := by
    rw [show (45 : Nat) = 41 + 4 from rfl, ← List.drop_drop, e41, List.drop_left' hD]
  have ehdr : (bs.drop 45).headD 0 = hdr := by
    rw [e45]
    rfl
  have e46 : bs.drop 46 = xb := by
    rw [show (46 : Nat) = 45 + 1 from rfl, ← List.drop_drop, e45]
    exact List.drop_left' rfl
  have exb : (bs.drop 46).take 32 = xb := by
    rw [e46, ← hxb, List.take_length]
  have ev : bs.headD 0 = v := by
    rw [hbs]
    rfl
  unfold Transaction.fromBuffer
  rw [if_neg (by omega : ¬ bs.length < 78)]
  rw [ev, eprev, ex, ey, ecol, ehdr, exb]
  rw [if_neg (by rcases hhdr with h | h <;> simp [h])]

/-- C5 amended: serialization writes version, previous reversed, position, color
and the owner's compressed key, and never the signature; deserializing these
bytes restores every field bit-for-bit except the signature, which is left
absent (and the previous Buffer is a fresh allocation with the same bytes).  The
hypotheses are the well-formedness the byte layout requires: an owner present,
32-byte previous and key, byte-sized version, int32 positions, uint32 color. -/
theorem c5_roundtrip_amended (t : Transaction) (k : PublicKeyC) (fresh : Nat)
    (howner : t.owner = some k)
    (hk : k.xbytes.length = 32)
    (hprev : t.previous.bytes.length = 32)
    (hv : t.version < 256)
    (hx1 : -(2 ^ 31) ≤ t.posx) (hx2 : t.posx < 2 ^ 31)
    (hy1 : -(2 ^ 31) ≤ t.posy) (hy2 : t.posy < 2 ^ 31)
    (hc : t.color < 2 ^ 32) :
    Transaction.toBuffer t =
      .ok ([t.version] ++ t.previous.bytes.reverse ++ toLE32i t.posx ++
        toLE32i t.posy ++ toLE 4 t.color ++
        ([if k.odd then 3 else 2] ++ k.xbytes)) ∧
    Transaction.fromBuffer fresh ([t.version] ++ t.previous.bytes.reverse ++
        toLE32i t.posx ++ toLE32i t.posy ++ toLE 4 t.color ++
        ([if k.odd then 3 else 2] ++ k.xbytes)) =
      .ok { t with previous := ⟨fresh, t.previous.bytes⟩, signature := none } := by
  constructor
  · unfold Transaction.toBuffer
    rw [howner]
    dsimp only
    have g1 : ¬ t.version ≥ 256 := by omega
    have g2 : ¬ (t.posx < -(2 ^ 31) ∨ t.posx ≥ 2 ^ 31) := by omega
    have g3 : ¬ (t.posy < -(2 ^ 31) ∨ t.posy ≥ 2 ^ 31) := by omega
    have g4 : ¬ t.color ≥ 2 ^ 32 := by omega
    rw [if_neg g1, if_neg g2, if_neg g3, if_neg g4]
  · rw [fromBuffer_segments fresh t.version t.previous.bytes.reverse (toLE32i t.posx)
      (toLE32i t.posy) (toLE 4 t.color) k.xbytes (if k.odd then 3 else 2)
      (by rw [List.length_reverse, hprev]) (toLE32i_length _) (toLE32i_length _)
      (toLE_length 4 _) hk (by cases k.odd <;> simp)]
    rw [List.reverse_reverse]
    rw [readInt32_toLE32i t.posx hx1 hx2, readInt32_toLE32i t.posy hy1 hy2]
    rw [fromLE_toLE_of_lt (by norm_num at hc ⊢; exact hc)]
    have hodd : (decide ((if k.odd then 3 else 2) = 3) : Bool) = k.odd := by
      cases k.odd <;> simp
    rw [hodd]
    cases t with
    | mk ver prev posx posy col ow sg =>
      simp only at howner ⊢
      rw [howner]

/-- C5 witness: the amended round-trip theorem applied to the concrete unsigned
transaction c5utx. -/
theorem c5_witness :
    Transaction.fromBuffer 9 ([1] ++ (List.replicate 32 7).reverse ++ toLE32i 3 ++
        toLE32i (-4) ++ toLE 4 9 ++ ([2] ++ List.replicate 32 1)) =
      .ok { c5utx with previous := ⟨9, List.replicate 32 7⟩, signature := none } :=
  (c5_roundtrip_amended c5utx ⟨false, List.replicate 32 1⟩ 9 rfl (by decide)
    (by decide) (by decide) (by decide) (by decide) (by decide) (by decide)
    (by decide)).2

theorem confirm_ok_fields (s s1 : Chain) (b : Block)
    (h : Blockchain.confirm s b = (s1, none)) :
    s1.work = s.work ∧ s1.prev = s.prev ∧ s1.blockStore = s.blockStore ∧
      s1.tip = .hash b.hash := by
  unfold Blockchain.confirm at h
  dsimp only at h
  split at h
  · simp at h
  · injection h with h1 h2
    subst h1
    exact ⟨rfl, rfl, rfl, rfl⟩

theorem unconfirm_ok_fields (s s1 : Chain) (b : Block)
    (h : Blockchain.unconfirm s b = (s1, none)) :
    s1.work = s.work ∧ s1.prev = s.prev ∧ s1.blockStore = s.blockStore ∧
      s1.tip = s.prev.getJs (.hash b.hash) ∧ JsStr.hash b.hash = s.tip := by
  unfold Blockchain.unconfirm at h
  dsimp only at h
  split at h
  · simp at h
  · next hne =>
    have htip : JsStr.hash b.hash = s.tip := not_not.mp hne
    split at h
    · simp at h
    · split at h
      · injection h with h1 h2
        subst h1
        exact ⟨rfl, rfl, rfl, rfl, htip⟩
      · simp at h

theorem runUnconfirms_ok_fields (l : List JsStr) :
    ∀ (s s1 : Chain) (fuel : Nat) (anc : JsStr),
      Blockchain.walkToAncestor s.prev fuel s.tip anc = some l →
      Blockchain.runUnconfirms s l = (s1, none) →
      s1.tip = anc ∧ s1.work = s.work ∧ s1.prev = s.prev ∧
        s1.blockStore = s.blockStore := by
  induction l with
  | nil =>
    intro s s1 fuel anc hwalk hrun
    have hs : s1 = s := by
      unfold Blockchain.runUnconfirms at hrun
      injection hrun with h1 h2
      exact h1.symm
    subst hs
    cases fuel with
    | zero => simp [Blockchain.walkToAncestor] at hwalk
    | succ f =>
      unfold Blockchain.walkToAncestor at hwalk
      split at hwalk
      · next htipanc => exact ⟨htipanc, rfl, rfl, rfl⟩
      · simp at hwalk
  | cons hd rest ih =>
    intro s s1 fuel anc hwalk hrun
    cases fuel with
    | zero => simp [Blockchain.walkToAncestor] at hwalk
    | succ f =>
      unfold Blockchain.walkToAncestor at hwalk
      split at hwalk
      · simp at hwalk
      · next hne =>
        rw [Option.map_eq_some'] at hwalk
        obtain ⟨r, hr, hcons⟩ := hwalk
        injection hcons with hhd hrest
        unfold Blockchain.runUnconfirms at hrun
        cases hbs : s.blockStore.get? hd with
        | none => rw [hbs] at hrun; simp at hrun
        | some b =>
          rw [hbs] at hrun
          dsimp only at hrun
          cases hunc : Blockchain.unconfirm s b with
          | mk sm e =>
            rw [hunc] at hrun
            cases e with
            | some err => dsimp only at hrun; simp at hrun
            | none =>
              dsimp only at hrun
              obtain ⟨hw, hp, hbst, htip, hhash⟩ := unconfirm_ok_fields s sm b hunc
              have hwalk2 : Blockchain.walkToAncestor sm.prev f sm.tip anc =
                  some rest := by
                rw [hp, htip, hhash, ← hrest]
                exact hr
              obtain ⟨ht1, hw1, hp1, hb1⟩ := ih sm s1 f anc hwalk2 hrun
              exact ⟨ht1, hw1.trans hw, hp1.trans hp, hb1.trans hbst⟩

theorem runConfirms_ok_fields (l : List JsStr) :
    ∀ (s s1 : Chain),
      Blockchain.runConfirms s l = (s1, none) →
      s1.work = s.work ∧ s1.prev = s.prev ∧ s1.blockStore = s.blockStore ∧
        (l = [] → s1 = s) ∧
        (∀ h b, l.getLast? = some h → s.blockStore.get? h = some b →
          s1.tip = .hash b.hash) := by
  induction l with
  | nil =>
    intro s s1 hrun
    have hs : s1 = s := by
      unfold Blockchain.runConfirms at hrun
      injection hrun with h1 h2
      exact h1.symm
    subst hs
    exact ⟨rfl, rfl, rfl, fun _ => rfl, fun h b hl => by simp at hl⟩
  | cons hd rest ih =>
    intro s s1 hrun
    unfold Blockchain.runConfirms at hrun
    cases hbs : s.blockStore.get? hd with
    | none => rw [hbs] at hrun; simp at hrun
    | some b =>
      rw [hbs] at hrun
      dsimp only at hrun
      by_cases hval : Blockchain.isValidBlock s b = true
      · rw [if_pos hval] at hrun
        cases hcf : Blockchain.confirm s b with
        | mk sm e =>
          rw [hcf] at hrun
          cases e with
          | some err => dsimp only at hrun; simp at hrun
          | none =>
            dsimp only at hrun
            obtain ⟨hw, hp, hbst, htip⟩ := confirm_ok_fields s sm b hcf
            obtain ⟨hw1, hp1, hb1, hnil1, hlast1⟩ := ih sm s1 hrun
            refine ⟨hw1.trans hw, hp1.trans hp, hb1.trans hbst,
              fun hc => absurd hc (by simp), ?_⟩
            intro h b' hlast hget
            cases rest with
            | nil =>
              have hhd : h = hd := by
                simp [List.getLast?] at hlast
                exact hlast.symm
              subst hhd
              rw [hbs] at hget
              injection hget with hbb
              subst hbb
              rw [hnil1 rfl, htip]
            | cons a tl =>
              have hlast2 : (a :: tl).getLast? = some h := by
                rwa [List.getLast?_cons_cons] at hlast
              exact hlast1 h b' hlast2 (by rw [hbst]; exact hget)
      · rw [if_neg hval] at hrun
        simp at hrun

theorem walkUnknown_shape (height : JsMap JsStr JsNum) (prev : JsMap JsStr JsStr)
    (fuel : Nat) (p : JsStr) (l : List JsStr) (anc : JsStr)
    (h : Blockchain.walkUnknown height prev fuel p = some (l, anc)) :
    (l = [] ∧ anc = p) ∨ ∃ rest, l = p :: rest := by
  cases fuel with
  | zero => simp [Blockchain.walkUnknown] at h
  | succ f =>
    unfold Blockchain.walkUnknown at h
    split at h
    · left
      injection h with h1
      injection h1 with h2 h3
      exact ⟨h2.symm, h3.symm⟩
    · right
      rw [Option.map_eq_some'] at h
      obtain ⟨⟨l2, a2⟩, _, hcons⟩ := h
      injection hcons with h1 h2
      exact ⟨l2, h1.symm⟩

theorem appendNewBlock_ok_fields (s s1 : Chain) (h : JsStr) (b : Block)
    (r : Blockchain.ReorgResult)
    (hb : s.blockStore.get? h = some b) (hbh : JsStr.hash b.hash = h)
    (happ : Blockchain._appendNewBlock s h = (s1, .ok r)) :
    s1.work = s.work ∧ s1.tip = h := by
  unfold Blockchain._appendNewBlock at happ
  dsimp only at happ
  cases hw1 : Blockchain.walkUnknown s.height s.prev (s.prev.length + 2) h with
  | none => rw [hw1] at happ; simp at happ
  | some pr =>
    obtain ⟨toConfirmRev, anc⟩ := pr
    rw [hw1] at happ
    dsimp only at happ
    cases hw2 : Blockchain.walkToAncestor s.prev (s.prev.length + 2) s.tip anc with
    | none => rw [hw2] at happ; simp at happ
    | some toUnconfirm =>
      rw [hw2] at happ
      dsimp only at happ
      cases hru : Blockchain.runUnconfirms s toUnconfirm with
      | mk sU e1 =>
        rw [hru] at happ
        cases e1 with
        | some err => dsimp only at happ; simp at happ
        | none =>
          dsimp only at happ
          obtain ⟨hUtip, hUwork, hUprev, hUbs⟩ :=
            runUnconfirms_ok_fields toUnconfirm s sU (s.prev.length + 2) anc hw2 hru
          cases hrc : Blockchain.runConfirms sU toConfirmRev.reverse with
          | mk sC e2 =>
            rw [hrc] at happ
            cases e2 with
            | some err =>
              dsimp only at happ
              cases hrb : Blockchain.runRollback sC toUnconfirm.reverse with
              | mk s3 e3 =>
                rw [hrb] at happ
                cases e3 <;> (dsimp only at happ; simp at happ)
            | none =>
              dsimp only at happ
              obtain ⟨hCw, hCp, hCbs, hCnil, hClast⟩ :=
                runConfirms_ok_fields toConfirmRev.reverse sU sC hrc
              have hs1 : s1 = sC := by
                injection happ with h1 h2
                exact h1.symm
              rw [hs1]
              constructor
              · rw [hCw, hUwork]
              · rcases walkUnknown_shape _ _ _ _ _ _ hw1 with ⟨hnil, hanc⟩ |
                    ⟨rest, hcons⟩
                · have hsc : sC = sU := hCnil (by rw [hnil]; rfl)
                  rw [hsc, hUtip, hanc]
                · have hlast : (toConfirmRev.reverse).getLast? = some h := by
                    rw [hcons, List.getLast?_reverse]
                    rfl
                  have := hClast h b hlast (by rw [hUbs]; exact hb)
                  rw [this, hbh]

/-- C3 amended: proposing a block whose hash is not yet recorded, by a call that
returns normally, preserves tip maximality: if every known block's work was
bounded by the tip's work before the call, the same holds after it.  (The
counterexample shows the property fails across calls that raise a validation
error, and a block whose hash collides with an existing entry can overwrite its
recorded work, hence the two qualifications.) -/
theorem c3_tip_maximal_amended (s s1 : Chain) (b : Block)
    (r : Blockchain.ReorgResult)
    (hmax : TipMaximal s)
    (hfresh : s.work.get? (.hash b.hash) = none)
    (hrun : Blockchain.proposeNewBlock s b = (s1, .ok r)) :
    TipMaximal s1 := by
  obtain ⟨⟨z, hz⟩, t, ht, hall⟩ := hmax
  unfold Blockchain.proposeNewBlock at hrun
  by_cases hhd : Blockchain.hasData s (.hash b.prevHash) = true
  case neg =>
    rw [Bool.not_eq_true] at hhd
    rw [hhd] at hrun
    simp at hrun
  rw [hhd] at hrun
  simp only [Bool.not_true, Bool.false_eq_true, if_false] at hrun
  have hAwork : (Blockchain.addHashReferences (Blockchain.saveBlockToStore s b) b).work =
      s.work.set (.hash b.hash) (jsAdd1 (s.work.get? (.hash b.prevHash))) := rfl
  have hAtip : (Blockchain.addHashReferences (Blockchain.saveBlockToStore s b) b).tip =
      s.tip := rfl
  have hself : (Blockchain.addHashReferences (Blockchain.saveBlockToStore s b) b).work.get?
      (.hash b.hash) = some (jsAdd1 (s.work.get? (.hash b.prevHash))) := by
    rw [hAwork]
    exact JsMap.get?_set_self _ _ _
  have htipne : s.tip ≠ JsStr.hash b.hash := by
    intro e
    have hcontra := ht
    rw [e, hfresh] at hcontra
    exact Option.noConfusion hcontra
  have hnullne : NULLs ≠ JsStr.hash b.hash := by
    intro e
    have hcontra := hz
    rw [e, hfresh] at hcontra
    exact Option.noConfusion hcontra
  have hAtipw : (Blockchain.addHashReferences (Blockchain.saveBlockToStore s b) b).work.get?
      s.tip = some (.num t) := by
    rw [hAwork, JsMap.get?_set_ne _ _ _ _ htipne]
    exact ht
  have hparent : ∃ n0, s.work.get? (.hash b.prevHash) = some (.num n0) := by
    unfold Blockchain.hasData at hhd
    rcases Bool.or_eq_true_iff.mp hhd with hn | hsome
    · have : JsStr.hash b.prevHash = NULLs := by simpa using hn
      rw [this]
      exact ⟨z, hz⟩
    · cases hw : s.work.get? (.hash b.prevHash) with
      | none => rw [hw] at hsome; simp at hsome
      | some w =>
        have hmem := JsMap.get?_mem hw
        have := hall _ hmem
        cases w with
        | num n => exact ⟨n, rfl⟩
        | nan => simp [jsLeB] at this
  obtain ⟨n0, hn0⟩ := hparent
  have hv : jsAdd1 (s.work.get? (.hash b.prevHash)) = .num (n0 + 1) := by
    rw [hn0]
    rfl
  rw [hself, hAtip, hAtipw, hv] at hrun
  simp only [Option.isNone_some, Bool.false_eq_true, if_false] at hrun
  by_cases hgt : t < n0 + 1
  · have hjs : jsGt (some (JsNum.num (n0 + 1))) (some (JsNum.num t)) = true := by
      simp [jsGt]
      omega
    rw [hjs] at hrun
    simp only [if_true] at hrun
    have hbstore : (Blockchain.addHashReferences (Blockchain.saveBlockToStore s b) b).blockStore.get?
        (.hash b.hash) = some b := JsMap.get?_set_self _ _ _
    obtain ⟨hw1, htip1⟩ := appendNewBlock_ok_fields _ s1 (.hash b.hash) b r hbstore rfl hrun
    refine ⟨⟨z, ?_⟩, n0 + 1, ?_, ?_⟩
    · rw [hw1, hAwork, JsMap.get?_set_ne _ _ _ _ hnullne]
      exact hz
    · rw [hw1, htip1, hself, hv]
    · intro p hp
      rw [hw1, hAwork] at hp
      rcases JsMap.mem_set hp with he | ⟨hold, _⟩
      · rw [he, hv]
        simp [jsLeB]
      · obtain ⟨pk, pv⟩ := p
        have := hall _ hold
        cases pv with
        | num n =>
          simp [jsLeB] at this ⊢
          omega
        | nan => simp [jsLeB] at this
  · have hjs : jsGt (some (JsNum.num (n0 + 1))) (some (JsNum.num t)) = false := by
      simp [jsGt]
      omega
    rw [hjs] at hrun
    simp only [Bool.false_eq_true, if_false] at hrun
    have hs1 : s1 = Blockchain.addHashReferences (Blockchain.saveBlockToStore s b) b := by
      injection hrun with h1 h2
      exact h1.symm
    subst hs1
    refine ⟨⟨z, ?_⟩, t, ?_, ?_⟩
    · rw [hAwork, JsMap.get?_set_ne _ _ _ _ hnullne]
      exact hz
    · rw [hAtip, hAtipw]
    · intro p hp
      rw [hAwork] at hp
      rcases JsMap.mem_set hp with he | ⟨hold, _⟩
      · rw [he, hv]
        simp [jsLeB]
        omega
      · exact hall p hold

/-- C3 witness: the amended preservation theorem applied to the concrete
successful call that extends the genesis child with block A. -/
theorem c3_witness : TipMaximal chainGA :=
  c3_tip_maximal_amended chainG chainGA aBlock ⟨[], [.hash 2]⟩
    ⟨⟨0, by decide⟩, 1, by decide, by decide⟩ (by decide) (by decide)

end StoneAge

